import Mathlib

/-!
Verification of the single-host MapReduce engine (top-level map.py,
reduce.py, main.py, and the near-identical nested tree src/python).
The Python fragments the claims depend on are shallowly embedded below:
dictionaries become association lists in insertion order, the ambient
process hash becomes an explicit function parameter, queues and files
become explicit values, and fallible statements return explicit results.
-/

abbrev Key := String

abbrev Value := String

abbrev KV := Key × Value

/-- Embeds the expression computed inside Mapper.emit_intermediate, namely
reducer_id = hash(key) % self.num_reducers. The ambient hash of the run is
the parameter h; the Python percent operator on a positive modulus is
Int.emod, whose result is non-negative. -/
def partitionOf (h : Key → Int) (R : Nat) (k : Key) : Nat :=
  ((h k) % (R : Int)).toNat

/-- Fields of a constructed Mapper that emit_intermediate consults, together
with the hash function of the worker process hosting it. -/
structure MapperProc where
  id : Nat
  num_reducers : Nat
  hashFn : Key → Int

/-- The reducer index Mapper.emit_intermediate routes a key to. -/
def MapperProc.reducerIdFor (M : MapperProc) (k : Key) : Nat :=
  partitionOf M.hashFn M.num_reducers k

/-- Concrete stand-in process hash used to evaluate the models on inputs. -/
def strLenHash (k : Key) : Int := (k.length : Int)

/-- Embeds Python dict assignment d[key] = value on an association list in
insertion order: replace the value at an existing key, else append. -/
def dictSet : List KV → Key → Value → List KV
  | [], k, v => [(k, v)]
  | p :: rest, k, v => if p.1 = k then (k, v) :: rest else p :: dictSet rest k v

/-- Embeds Python dict lookup on an association list. -/
def dictGet {α : Type} : List (Key × α) → Key → Option α
  | [], _ => none
  | p :: rest, k => if p.1 = k then some p.2 else dictGet rest k

/-- Embeds Reducer.emit_final, which runs self.reduced_data[key] = value. -/
def emitFinal (rd : List KV) (k : Key) (v : Value) : List KV := dictSet rd k v

/-- The reduced_data mapping after a sequence of emit_final calls, starting
from the empty dict installed by start_reducer. -/
def applyEmitFinals (calls : List KV) : List KV :=
  calls.foldl (fun rd kv => emitFinal rd kv.1 kv.2) []

/-- Embeds the reduce loop of Reducer.start_reducer: the user reduce callable
is modelled by the list of emit_final calls it performs on one group, and
the groups of final_dict are visited in dictionary order. -/
def startReducerRun (reduceF : Key → List Value → List KV)
    (finalDict : List (Key × List Value)) : List KV :=
  applyEmitFinals (finalDict.flatMap (fun p => reduceF p.1 p.2))

theorem dictGet_dictSet (d : List KV) (k k' : Key) (v : Value) :
    dictGet (dictSet d k v) k' = if k = k' then some v else dictGet d k' := by
  induction d with
  | nil =>
    by_cases h : k = k' <;> simp [dictSet, dictGet, h]
  | cons p rest ih =>
    by_cases hp : p.1 = k
    · by_cases h : k = k'
      · simp [dictSet, dictGet, hp, h]
      · have hp' : ¬ p.1 = k' := by rw [hp]; exact h
        simp [dictSet, dictGet, hp, hp', h]
    · by_cases h2 : p.1 = k'
      · have h : ¬ k = k' := fun he => hp (h2.trans he.symm)
        have h' : ¬ k' = k := fun he => h he.symm
        simp [dictSet, dictGet, hp, h2, h, h']
      · simp [dictSet, dictGet, hp, h2, ih]

theorem dictGet_foldl_emitFinal (calls : List KV) (rd : List KV) (k : Key) :
    dictGet (calls.foldl (fun rd kv => emitFinal rd kv.1 kv.2) rd) k
      = match (calls.filter (fun kv => kv.1 == k)).getLast? with
        | some kv => some kv.2
        | none => dictGet rd k := by
  induction calls using List.reverseRecOn with
  | nil => rfl
  | append_singleton l a ih =>
    rw [List.foldl_append, List.filter_append]
    simp only [List.foldl_cons, List.foldl_nil, emitFinal]
    by_cases h : a.1 = k
    · have hf : List.filter (fun kv => kv.1 == k) [a] = [a] := by simp [h]
      rw [hf, List.getLast?_concat, dictGet_dictSet, if_pos h]
    · have hf : List.filter (fun kv => kv.1 == k) [a] = [] := by simp [h]
      rw [hf, List.append_nil, dictGet_dictSet, if_neg h]
      exact ih

/-- C10: last write wins in emit_final. For every key, the reducer output
mapping holds exactly the value of the last emit_final call for that key
during the run, and a key never passed to emit_final is absent. -/
theorem emit_final_last_write_wins (calls : List KV) (k : Key) :
    dictGet (applyEmitFinals calls) k
      = ((calls.filter (fun kv => kv.1 == k)).getLast?).map (fun kv => kv.2) := by
  rw [applyEmitFinals, dictGet_foldl_emitFinal]
  cases (calls.filter (fun kv => kv.1 == k)).getLast? <;> simp [dictGet]

/-- C1: for any two mappers of one run (same process hash, same reducer
count), emit_intermediate routes any key to the same reducer index, and
that index lies in the interval from 0 to the reducer count. -/
theorem partition_stability (M₁ M₂ : MapperProc)
    (hh : M₁.hashFn = M₂.hashFn) (hR : M₁.num_reducers = M₂.num_reducers)
    (hpos : 1 ≤ M₁.num_reducers) (k : Key) :
    M₁.reducerIdFor k = M₂.reducerIdFor k ∧ M₁.reducerIdFor k < M₁.num_reducers := by
  constructor
  · simp [MapperProc.reducerIdFor, hh, hR]
  · unfold MapperProc.reducerIdFor partitionOf
    have hRpos : (0 : Int) < (M₁.num_reducers : Int) := by exact_mod_cast hpos
    have h1 : 0 ≤ M₁.hashFn k % (M₁.num_reducers : Int) :=
      Int.emod_nonneg _ (by omega)
    have h2 : M₁.hashFn k % (M₁.num_reducers : Int) < (M₁.num_reducers : Int) :=
      Int.emod_lt_of_pos _ hRpos
    omega

theorem partition_stability_witness :
    1 ≤ (⟨0, 3, strLenHash⟩ : MapperProc).num_reducers ∧
    ((⟨0, 3, strLenHash⟩ : MapperProc).reducerIdFor "ab"
        = (⟨1, 3, strLenHash⟩ : MapperProc).reducerIdFor "ab" ∧
      (⟨0, 3, strLenHash⟩ : MapperProc).reducerIdFor "ab"
        < (⟨0, 3, strLenHash⟩ : MapperProc).num_reducers) :=
  ⟨by decide,
    partition_stability ⟨0, 3, strLenHash⟩ ⟨1, 3, strLenHash⟩ rfl rfl (by decide) "ab"⟩

/-- Worker status characters put on a status queue: I in progress, D done. -/
inductive WStatus where
  | inProg
  | done
deriving DecidableEq

/-- Python exceptions the embedded fragments can raise. -/
inductive PyError where
  | nameError (missing : String)
  | fileNotFoundError (shard : Nat)
  | jsonDecodeError
deriving DecidableEq

/-- Observable outcome of one start_reducer call in the top-level tree: the
status messages that reached the queue, the output file contents when
written, and the exception when one escaped. -/
structure ReducerRunResult where
  statusSent : List WStatus
  outputWritten : Option (List KV)
  error : Option PyError
deriving DecidableEq

/-- The module scope of the top-level src/reduce.py: its only import
statements are import json and import os on the first two lines. -/
def reduceModuleImports : List String := ["json", "os"]

/-- Embeds Reducer.start_reducer of the top-level tree. After installing the
empty reduced_data dict, the very first statement builds the argument of
status_queue.put by evaluating time.time(); resolving the name time against
the module scope either succeeds, after which the loop over final_dict, the
closing put and write_data run, or raises NameError before the put. -/
def startReducerModel (imports : List String)
    (reduceF : Key → List Value → List KV)
    (finalDict : List (Key × List Value)) : ReducerRunResult :=
  if imports.contains "time" then
    { statusSent := [.inProg, .done]
      outputWritten := some (startReducerRun reduceF finalDict)
      error := none }
  else
    { statusSent := [], outputWritten := none, error := some (.nameError "time") }

/-- C3: every invocation of the top-level Reducer.start_reducer raises a
NameError on the unimported time module before any status message is
enqueued and before any output is written, for every reducer input; the
reduce phase of that tree can never report InProgress or Done. -/
theorem start_reducer_always_name_error
    (reduceF : Key → List Value → List KV) (finalDict : List (Key × List Value)) :
    startReducerModel reduceModuleImports reduceF finalDict
      = { statusSent := [], outputWritten := none, error := some (.nameError "time") } := rfl

/-- Embeds one emit_intermediate call updating the nested defaultdict
map_data: the value is appended to map_data[partition(key)][key]. The
buffer is viewed as the function from a reducer index and a key to the
accumulated value list. -/
def emitIntermediate (h : Key → Int) (R : Nat)
    (md : Nat → Key → List Value) (kv : KV) : Nat → Key → List Value :=
  fun r k =>
    if r = partitionOf h R kv.1 ∧ k = kv.1 then md r k ++ [kv.2] else md r k

/-- The map_data buffer after the map loop of start_mapper has folded in
every emission of the user map callable, starting from the empty
defaultdict. -/
def mapDataOf (h : Key → Int) (R : Nat) (E : List KV) : Nat → Key → List Value :=
  E.foldl (emitIntermediate h R) (fun _ _ => [])

/-- Values a run with emission sequence E sends to reducer r under key k, in
emission order. -/
def valuesOf (h : Key → Int) (R : Nat) (E : List KV) (r : Nat) (k : Key) : List Value :=
  (E.filter (fun kv => kv.1 == k && partitionOf h R kv.1 == r)).map (fun kv => kv.2)

theorem foldl_emitIntermediate (h : Key → Int) (R : Nat) (E : List KV)
    (md : Nat → Key → List Value) (r : Nat) (k : Key) :
    (E.foldl (emitIntermediate h R) md) r k = md r k ++ valuesOf h R E r k := by
  induction E generalizing md with
  | nil => simp [valuesOf]
  | cons kv E ih =>
    rw [List.foldl_cons, ih]
    by_cases hcond : kv.1 = k ∧ partitionOf h R kv.1 = r
    · have hemit : emitIntermediate h R md kv r k = md r k ++ [kv.2] := by
        simp only [emitIntermediate]
        rw [if_pos ⟨hcond.2.symm, hcond.1.symm⟩]
      have hv : valuesOf h R (kv :: E) r k = kv.2 :: valuesOf h R E r k := by
        rw [valuesOf, valuesOf, List.filter_cons]
        have hb : (kv.1 == k && (partitionOf h R kv.1 == r)) = true := by
          have e1 : (kv.1 == k) = true := by simp [hcond.1]
          have e2 : (partitionOf h R kv.1 == r) = true := by simp [hcond.2]
          rw [e1, e2]
          rfl
        rw [hb]
        simp
      rw [hemit, hv, List.append_assoc]
      rfl
    · have hemit : emitIntermediate h R md kv r k = md r k := by
        simp only [emitIntermediate]
        rw [if_neg]
        rintro ⟨hr, hk⟩
        exact hcond ⟨hk.symm, hr.symm⟩
      have hv : valuesOf h R (kv :: E) r k = valuesOf h R E r k := by
        rw [valuesOf, valuesOf, List.filter_cons]
        have hb : (kv.1 == k && (partitionOf h R kv.1 == r)) = false := by
          rcases not_and_or.mp hcond with hc | hc <;> simp [hc]
        rw [hb]
        simp
      rw [hemit, hv]

theorem mapDataOf_eq_valuesOf (h : Key → Int) (R : Nat) (E : List KV)
    (r : Nat) (k : Key) : mapDataOf h R E r k = valuesOf h R E r k := by
  rw [mapDataOf, foldl_emitIntermediate]
  rfl

/-- First-occurrence deduplication with an accumulator of already seen keys;
this is the key order of a Python dict built by repeated indexing. -/
def firstDedupAux {α : Type} [DecidableEq α] (seen : List α) : List α → List α
  | [] => []
  | a :: l => if a ∈ seen then firstDedupAux seen l else a :: firstDedupAux (a :: seen) l

/-- Keys in first-occurrence order. -/
def firstDedup {α : Type} [DecidableEq α] (l : List α) : List α := firstDedupAux [] l

theorem mem_firstDedupAux {α : Type} [DecidableEq α] (l seen : List α) (a : α) :
    a ∈ firstDedupAux seen l ↔ a ∈ l ∧ a ∉ seen := by
  induction l generalizing seen with
  | nil => simp [firstDedupAux]
  | cons b l ih =>
    simp only [firstDedupAux]
    by_cases hb : b ∈ seen
    · rw [if_pos hb, ih]
      constructor
      · rintro ⟨h1, h2⟩
        exact ⟨List.mem_cons_of_mem _ h1, h2⟩
      · rintro ⟨h1, h2⟩
        rcases List.mem_cons.mp h1 with h3 | h3
        · subst h3
          exact absurd hb h2
        · exact ⟨h3, h2⟩
    · rw [if_neg hb]
      constructor
      · intro hmem
        rcases List.mem_cons.mp hmem with h3 | h3
        · subst h3
          exact ⟨List.mem_cons_self _ _, hb⟩
        · have h4 := (ih _).mp h3
          refine ⟨List.mem_cons_of_mem _ h4.1, fun hs => h4.2 (List.mem_cons_of_mem _ hs)⟩
      · rintro ⟨h1, h2⟩
        rcases List.mem_cons.mp h1 with h3 | h3
        · subst h3
          exact List.mem_cons_self _ _
        · by_cases hab : a = b
          · subst hab
            exact List.mem_cons_self _ _
          · refine List.mem_cons_of_mem _ ((ih _).mpr ⟨h3, fun hmem => ?_⟩)
            rcases List.mem_cons.mp hmem with h5 | h5
            · exact hab h5
            · exact h2 h5

theorem firstDedupAux_nodup {α : Type} [DecidableEq α] (l seen : List α) :
    (firstDedupAux seen l).Nodup := by
  induction l generalizing seen with
  | nil => simp [firstDedupAux]
  | cons b l ih =>
    simp only [firstDedupAux]
    by_cases hb : b ∈ seen
    · rw [if_pos hb]
      exact ih seen
    · rw [if_neg hb]
      refine List.nodup_cons.mpr ⟨fun hmem => ?_, ih _⟩
      exact ((mem_firstDedupAux _ _ _).mp hmem).2 (List.mem_cons_self _ _)

/-- Keys of the inner dict map_data[r] in insertion (first-emission) order. -/
def bucketKeys (h : Key → Int) (R : Nat) (E : List KV) (r : Nat) : List Key :=
  firstDedup ((E.filter (fun kv => partitionOf h R kv.1 == r)).map (fun kv => kv.1))

/-- Serialized content of the intermediate file written by write_data for one
reducer id: the JSON object lists the keys of map_data[r] in insertion
order, each with its accumulated value list. -/
def bucketAL (h : Key → Int) (R : Nat) (E : List KV) (r : Nat) : List (Key × List Value) :=
  (bucketKeys h R E r).map (fun k => (k, mapDataOf h R E r k))

/-- Whether reducer id r is a key of the outer defaultdict map_data, i.e.
whether some emission of the run was routed to partition r. write_data
iterates exactly these ids. -/
def activeFor (h : Key → Int) (R : Nat) (E : List KV) (r : Nat) : Bool :=
  E.any (fun kv => partitionOf h R kv.1 == r)

/-- On-disk intermediate state after every mapper ran write_data, with
mapper m emitting the sequence emits m: the file m{m}r{r} exists iff r is a
key of the map_data of mapper m, and then holds the serialized bucket. -/
def intermediateFiles (h : Key → Int) (R : Nat) (emits : Nat → List KV)
    (m r : Nat) : Option (List (Key × List Value)) :=
  if activeFor h R (emits m) r then some (bucketAL h R (emits m) r) else none

/-- Embeds final_dict.setdefault(key, []).extend(values): extend the list at
an existing key, else append the key holding values. -/
def dictExtend : List (Key × List Value) → Key → List Value → List (Key × List Value)
  | [], k, vs => [(k, vs)]
  | p :: rest, k, vs =>
    if p.1 = k then (p.1, p.2 ++ vs) :: rest else p :: dictExtend rest k vs

/-- Embeds the inner loop of load_intermediate_data over the items of one
deserialized intermediate file. -/
def loadFile : List (Key × List Value) → List (Key × List Value) → List (Key × List Value)
  | fd, [] => fd
  | fd, p :: rest => loadFile (dictExtend fd p.1 p.2) rest

/-- Embeds the loop of load_intermediate_data over a list of mapper ids,
merging every existing file m{m}r{r} into final_dict. -/
def loadFilesFold (r : Nat) (files : Nat → Nat → Option (List (Key × List Value))) :
    List (Key × List Value) → List Nat → List (Key × List Value)
  | fd, [] => fd
  | fd, m :: ms =>
    loadFilesFold r files
      (match files m r with
       | some data => loadFile fd data
       | none => fd) ms

/-- Embeds Reducer.load_intermediate_data: mapper ids are visited in
ascending order 0..N-1 starting from the empty final_dict. -/
def loadIntermediateData (N r : Nat)
    (files : Nat → Nat → Option (List (Key × List Value))) : List (Key × List Value) :=
  loadFilesFold r files [] (List.range N)

/-- Contribution of mapper m to the merged value list of key k at reducer r:
the value list the existing file stores under k, and nothing otherwise. -/
def fileContrib (files : Nat → Nat → Option (List (Key × List Value)))
    (r m : Nat) (k : Key) : List Value :=
  match files m r with
  | some data => (dictGet data k).getD []
  | none => []

theorem dictGet_dictExtend (fd : List (Key × List Value)) (k k' : Key) (vs : List Value) :
    dictGet (dictExtend fd k vs) k'
      = if k = k' then some ((dictGet fd k).getD [] ++ vs) else dictGet fd k' := by
  induction fd with
  | nil =>
    by_cases h : k = k' <;> simp [dictExtend, dictGet, h]
  | cons p rest ih =>
    by_cases hp : p.1 = k
    · by_cases h : k = k'
      · subst h
        simp [dictExtend, dictGet, hp]
      · have hp' : ¬ p.1 = k' := by rw [hp]; exact h
        simp [dictExtend, dictGet, hp, hp', h]
    · by_cases h2 : p.1 = k'
      · have h : ¬ k = k' := fun he => hp (h2.trans he.symm)
        have h' : ¬ k' = k := fun he => h he.symm
        simp [dictExtend, dictGet, hp, h2, h, h']
      · simp [dictExtend, dictGet, hp, h2, ih]

theorem dictGet_eq_none_of_not_mem {α : Type} (d : List (Key × α)) (k : Key)
    (hk : k ∉ d.map Prod.fst) : dictGet d k = none := by
  induction d with
  | nil => rfl
  | cons p rest ih =>
    simp only [List.map_cons, List.mem_cons] at hk
    push_neg at hk
    have hp : ¬ p.1 = k := fun he => hk.1 he.symm
    simp [dictGet, hp, ih hk.2]

theorem dictGet_loadFile (data : List (Key × List Value)) (fd : List (Key × List Value))
    (k : Key) (hnd : (data.map Prod.fst).Nodup) :
    dictGet (loadFile fd data) k
      = match dictGet data k with
        | some vs => some ((dictGet fd k).getD [] ++ vs)
        | none => dictGet fd k := by
  induction data generalizing fd with
  | nil => rfl
  | cons p rest ih =>
    simp only [List.map_cons, List.nodup_cons] at hnd
    rw [loadFile]
    by_cases hp : p.1 = k
    · subst hp
      have hnone : dictGet rest p.1 = none := dictGet_eq_none_of_not_mem _ _ hnd.1
      rw [ih _ hnd.2, hnone]
      have hext := dictGet_dictExtend fd p.1 p.1 p.2
      rw [if_pos rfl] at hext
      simp [dictGet, hext]
    · rw [ih _ hnd.2]
      have hext := dictGet_dictExtend fd p.1 k p.2
      rw [if_neg hp] at hext
      rw [hext]
      simp [dictGet, hp]

theorem dictGet_keysMap {α : Type} (ks : List Key) (f : Key → α) (k : Key) :
    dictGet (ks.map (fun k' => (k', f k'))) k = if k ∈ ks then some (f k) else none := by
  induction ks with
  | nil => rfl
  | cons a ks ih =>
    by_cases hak : a = k
    · subst hak
      simp [dictGet]
    · have hka : ¬ k = a := fun he => hak he.symm
      simp [dictGet, hak, hka, ih]

theorem bucketAL_keys_nodup (h : Key → Int) (R : Nat) (E : List KV) (r : Nat) :
    ((bucketAL h R E r).map Prod.fst).Nodup := by
  have : (bucketAL h R E r).map Prod.fst = bucketKeys h R E r := by
    rw [bucketAL, List.map_map]
    exact List.map_id _
  rw [this, bucketKeys, firstDedup]
  exact firstDedupAux_nodup _ _

theorem valuesOf_eq_nil_of_not_active (h : Key → Int) (R : Nat) (E : List KV)
    (r : Nat) (k : Key) (ha : activeFor h R E r = false) :
    valuesOf h R E r k = [] := by
  rw [valuesOf, List.map_eq_nil_iff]
  rw [List.filter_eq_nil_iff]
  intro kv hkv
  rw [activeFor] at ha
  have := List.any_eq_false.mp ha kv hkv
  simp only [Bool.and_eq_true, not_and]
  intro _
  exact this

theorem valuesOf_eq_nil_of_not_mem_bucketKeys (h : Key → Int) (R : Nat) (E : List KV)
    (r : Nat) (k : Key) (hk : k ∉ bucketKeys h R E r) :
    valuesOf h R E r k = [] := by
  rw [valuesOf, List.map_eq_nil_iff, List.filter_eq_nil_iff]
  intro kv hkv hpred
  apply hk
  simp only [Bool.and_eq_true, beq_iff_eq] at hpred
  rw [bucketKeys, firstDedup, mem_firstDedupAux]
  refine ⟨?_, by simp⟩
  simp only [List.mem_map]
  refine ⟨kv, ?_, hpred.1⟩
  rw [List.mem_filter]
  exact ⟨hkv, by simp [hpred.2]⟩

theorem fileContrib_intermediate (h : Key → Int) (R : Nat) (emits : Nat → List KV)
    (m r : Nat) (k : Key) :
    fileContrib (intermediateFiles h R emits) r m k = valuesOf h R (emits m) r k := by
  rw [fileContrib, intermediateFiles]
  by_cases ha : activeFor h R (emits m) r
  · rw [if_pos ha]
    show (dictGet (bucketAL h R (emits m) r) k).getD [] = _
    rw [bucketAL, dictGet_keysMap]
    by_cases hk : k ∈ bucketKeys h R (emits m) r
    · rw [if_pos hk]
      simp [mapDataOf_eq_valuesOf]
    · rw [if_neg hk]
      simp [valuesOf_eq_nil_of_not_mem_bucketKeys h R (emits m) r k hk]
  · rw [if_neg ha]
    show ([] : List Value) = _
    rw [valuesOf_eq_nil_of_not_active h R (emits m) r k (by simpa using ha)]

theorem dictGet_loadFilesFold (L : List Nat) (r : Nat)
    (files : Nat → Nat → Option (List (Key × List Value)))
    (hnd : ∀ m data, files m r = some data → (data.map Prod.fst).Nodup)
    (fd : List (Key × List Value)) (k : Key) :
    (dictGet (loadFilesFold r files fd L) k).getD []
      = (dictGet fd k).getD [] ++ L.flatMap (fun m => fileContrib files r m k) := by
  induction L generalizing fd with
  | nil => simp [loadFilesFold]
  | cons m ms ih =>
    rw [loadFilesFold]
    cases hf : files m r with
    | none =>
      rw [ih fd]
      have : fileContrib files r m k = [] := by rw [fileContrib, hf]
      simp [this]
    | some data =>
      rw [ih _]
      have hstep : (dictGet (loadFile fd data) k).getD []
          = (dictGet fd k).getD [] ++ fileContrib files r m k := by
        rw [dictGet_loadFile data fd k (hnd m data hf), fileContrib, hf]
        cases hdata : dictGet data k <;> simp [hdata]
      rw [hstep, List.flatMap_cons, List.append_assoc]

/-- C8: reducer merge order. For every key, the value list of the merged
final_dict equals the concatenation, in ascending mapper-index order, of the
value lists the existing files m{m}r{r} store under that key, and each file
stores exactly the values of that mapper under the key in emission order. -/
theorem reducer_merge_order (h : Key → Int) (R : Nat) (emits : Nat → List KV)
    (N r : Nat) (k : Key) :
    (dictGet (loadIntermediateData N r (intermediateFiles h R emits)) k).getD []
        = (List.range N).flatMap (fun m => fileContrib (intermediateFiles h R emits) r m k)
      ∧ (dictGet (loadIntermediateData N r (intermediateFiles h R emits)) k).getD []
        = (List.range N).flatMap (fun m => valuesOf h R (emits m) r k) := by
  have hnd : ∀ m data, intermediateFiles h R emits m r = some data →
      (data.map Prod.fst).Nodup := by
    intro m data hdata
    rw [intermediateFiles] at hdata
    by_cases ha : activeFor h R (emits m) r
    · rw [if_pos ha] at hdata
      cases hdata
      exact bucketAL_keys_nodup h R (emits m) r
    · rw [if_neg ha] at hdata
      cases hdata
  have hmain := dictGet_loadFilesFold (List.range N) r (intermediateFiles h R emits) hnd [] k
  rw [loadIntermediateData]
  constructor
  · rw [hmain]
    rfl
  · rw [hmain]
    simp only [fileContrib_intermediate]
    rfl

/-- Raw state of one on-disk intermediate file: either the complete
serialized bucket, or bytes truncated because a kill interrupted the
writer. -/
inductive IFile where
  | complete (data : List (Key × List Value))
  | truncated
deriving DecidableEq

/-- Deserialization on the reducer side: json.load succeeds exactly on a
completely written file. -/
def parseIFile : IFile → Except PyError (List (Key × List Value))
  | .complete data => .ok data
  | .truncated => .error .jsonDecodeError

/-- Intermediate directory of a run in which every mapper ran write_data to
completion; it is deterministic in the emission sequences. -/
def cleanIFS (h : Key → Int) (R : Nat) (emits : Nat → List KV) :
    Nat → Nat → Option IFile :=
  fun m r => (intermediateFiles h R emits m r).map IFile.complete

/-- Overlay of the whole-file writes of a restarted mapper over whatever the
killed attempt left on disk: write_data reopens each of its files with mode
w, so a rewritten name fully replaces the leftover, and a name the restart
does not write keeps the leftover. -/
def restartOverlay (restartWrites leftover : Nat → Option IFile) : Nat → Option IFile :=
  fun r =>
    match restartWrites r with
    | some f => some f
    | none => leftover r

/-- Intermediate directory after a run in which mapper kill was terminated
and later respawned by retry_mapper: its slots hold the deterministic
rewrite overlaid on the leftover P of the killed attempt, and every other
mapper slot is untouched. -/
def killedIFS (h : Key → Int) (R : Nat) (emits : Nat → List KV) (kill : Nat)
    (P : Nat → Option IFile) : Nat → Nat → Option IFile :=
  fun m r =>
    if m = kill then restartOverlay (fun r' => cleanIFS h R emits kill r') P r
    else cleanIFS h R emits m r

/-- Embeds load_intermediate_data over raw files: visit mapper ids in
ascending order, deserialize each existing file and merge it; a truncated
file surfaces as the json error of its deserialization. -/
def loadIntermediateDataE (N r : Nat) (fs : Nat → Nat → Option IFile) :
    Except PyError (List (Key × List Value)) :=
  (List.range N).foldl
    (fun acc m =>
      match acc, fs m r with
      | .error e, _ => .error e
      | .ok fd, some f =>
        match parseIFile f with
        | .ok data => .ok (loadFile fd data)
        | .error e => .error e
      | .ok fd, none => .ok fd)
    (.ok [])

/-- Output file contents of reducer r over the raw intermediate directory
fs: merge the existing files, then run the reduce loop over the merged
final_dict. -/
def reducerOutputE (reduceF : Key → List Value → List KV) (N r : Nat)
    (fs : Nat → Nat → Option IFile) : Except PyError (List KV) :=
  (loadIntermediateDataE N r fs).map (startReducerRun reduceF)

/-- C6: restart idempotence. For any kill index below N, with a
deterministic user map (the fixed emission sequences emits) and reduce, the
final output of the run whose killed mapper left any subset P of its own
file names behind and was restarted equals the output of the undisturbed
run, reducer by reducer. -/
theorem restart_idempotence (h : Key → Int) (R N : Nat) (emits : Nat → List KV)
    (reduceF : Key → List Value → List KV) (kill : Nat) (P : Nat → Option IFile)
    (hkill : kill < N)
    (hP : ∀ r, (P r).isSome = true → (cleanIFS h R emits kill r).isSome = true)
    (r : Nat) :
    reducerOutputE reduceF N r (killedIFS h R emits kill P)
      = reducerOutputE reduceF N r (cleanIFS h R emits) := by
  have hfs : killedIFS h R emits kill P = cleanIFS h R emits := by
    funext m r'
    rw [killedIFS]
    by_cases hm : m = kill
    · subst hm
      rw [if_pos rfl]
      simp only [restartOverlay]
      cases hc : cleanIFS h R emits m r' with
      | some f => rfl
      | none =>
        cases hp : P r' with
        | none => rfl
        | some f =>
          have hs := hP r' (by rw [hp]; rfl)
          rw [hc] at hs
          simp at hs
    · rw [if_neg hm]
  rw [hfs]

/-- Leftover state of a killed mapper that wrote nothing before dying. -/
def noLeftover : Nat → Option IFile := fun _ => none

/-- Concrete deterministic emission sequences for evaluating the models. -/
def witnessEmits : Nat → List KV := fun _ => [("a", "1")]

/-- Concrete deterministic user reduce callable for evaluating the models. -/
def witnessReduceF : Key → List Value → List KV := fun k _ => [(k, "x")]

theorem restart_idempotence_witness :
    (0 < 1 ∧ (∀ r, (noLeftover r).isSome = true →
        (cleanIFS strLenHash 1 witnessEmits 0 r).isSome = true)) ∧
    reducerOutputE witnessReduceF 1 0 (killedIFS strLenHash 1 witnessEmits 0 noLeftover)
      = reducerOutputE witnessReduceF 1 0 (cleanIFS strLenHash 1 witnessEmits) :=
  ⟨⟨by decide, fun r hr => absurd hr (by simp [noLeftover])⟩,
    restart_idempotence strLenHash 1 1 witnessEmits witnessReduceF 0 noLeftover
      (by decide) (fun r hr => absurd hr (by simp [noLeftover])) 0⟩

/-- Embeds Python enumerate over the lines of a file, starting at index n. -/
def pyEnumerateFrom {α : Type} : Nat → List α → List (Nat × α)
  | _, [] => []
  | n, x :: xs => (n, x) :: pyEnumerateFrom (n + 1) xs

/-- Embeds enumerate(reader) of split_input_data. -/
def pyEnumerate {α : Type} (l : List α) : List (Nat × α) := pyEnumerateFrom 0 l

/-- Embeds the newline normalization of split_input_data: a line not ending
with a newline character gets one appended. Lines are character lists. -/
def ensureNL (l : List Char) : List Char :=
  if l.getLast? = some '\n' then l else l ++ ['\n']

/-- Index and raw line pairs routed to shard i: the loop appends line idx to
the file named after idx % N, so shard i collects exactly the pairs with
idx % N = i, in loop order. -/
def shardPairs (lines : List (List Char)) (N i : Nat) : List (Nat × List Char) :=
  (pyEnumerate lines).filter (fun p => p.1 % N == i)

/-- Content of shard file i after split_input_data: the normalized lines of
its pairs in the order the loop appended them. -/
def shardContent (lines : List (List Char)) (N i : Nat) : List (List Char) :=
  (shardPairs lines N i).map (fun p => ensureNL p.2)

/-- Whether the shard file of mapper i exists after split_input_data: the
loop opens the file in append mode only when some line is routed to it. -/
def shardFileExists (lines : List (List Char)) (N i : Nat) : Bool :=
  !(shardPairs lines N i).isEmpty

theorem pyEnumerateFrom_map_snd {α : Type} (l : List α) (n : Nat) :
    (pyEnumerateFrom n l).map Prod.snd = l := by
  induction l generalizing n with
  | nil => rfl
  | cons x xs ih => simp [pyEnumerateFrom, ih]

theorem mem_pyEnumerateFrom {α : Type} (l : List α) (n idx : Nat) (x : α) :
    (idx, x) ∈ pyEnumerateFrom n l ↔ n ≤ idx ∧ l[idx - n]? = some x := by
  induction l generalizing n with
  | nil => simp [pyEnumerateFrom]
  | cons y ys ih =>
    simp only [pyEnumerateFrom, List.mem_cons, ih]
    constructor
    · rintro (h | ⟨h1, h2⟩)
      · rw [Prod.mk.injEq] at h
        obtain ⟨h3, h4⟩ := h
        subst h3
        subst h4
        simp
      · refine ⟨by omega, ?_⟩
        have he : idx - n = (idx - (n + 1)) + 1 := by omega
        rw [he]
        simpa using h2
    · rintro ⟨h1, h2⟩
      by_cases he : idx = n
      · subst he
        rw [Nat.sub_self] at h2
        simp only [List.getElem?_cons_zero, Option.some.injEq] at h2
        left
        rw [Prod.mk.injEq]
        exact ⟨rfl, h2.symm⟩
      · right
        refine ⟨by omega, ?_⟩
        have hrw : idx - n = (idx - (n + 1)) + 1 := by omega
        rw [hrw] at h2
        simpa using h2

theorem pyEnumerateFrom_lowerBound {α : Type} (l : List α) (n : Nat) :
    ∀ p ∈ pyEnumerateFrom n l, n ≤ p.1 := by
  intro p hp
  obtain ⟨idx, x⟩ := p
  exact ((mem_pyEnumerateFrom l n idx x).mp hp).1

theorem pyEnumerateFrom_pairwise {α : Type} (l : List α) (n : Nat) :
    (pyEnumerateFrom n l).Pairwise (fun p q => p.1 < q.1) := by
  induction l generalizing n with
  | nil => simp [pyEnumerateFrom]
  | cons x xs ih =>
    simp only [pyEnumerateFrom]
    refine List.pairwise_cons.mpr ⟨?_, ih (n + 1)⟩
    intro q hq
    have hle := pyEnumerateFrom_lowerBound xs (n + 1) q hq
    show n < q.1
    omega

theorem flatMap_const_nil {α β : Type} (L : List α) :
    (L.flatMap fun _ => ([] : List β)) = [] := by
  induction L with
  | nil => rfl
  | cons a L ih => simp [ih]

theorem flatMap_congr_mem {α β : Type} (L : List α) (f g : α → List β)
    (hfg : ∀ a ∈ L, f a = g a) : L.flatMap f = L.flatMap g := by
  induction L with
  | nil => rfl
  | cons a L ih =>
    rw [List.flatMap_cons, List.flatMap_cons, hfg a (List.mem_cons_self _ _),
      ih (fun b hb => hfg b (List.mem_cons_of_mem _ hb))]

theorem buckets_perm {α : Type} (N : Nat) (hN : 0 < N) (l : List (Nat × α)) :
    ((List.range N).flatMap fun i => l.filter fun p => p.1 % N == i).Perm l := by
  induction l with
  | nil =>
    simp only [List.filter_nil]
    rw [flatMap_const_nil]
  | cons x l ih =>
    have hmem : x.1 % N ∈ List.range N := List.mem_range.mpr (Nat.mod_lt _ hN)
    obtain ⟨A, B, hAB⟩ := List.append_of_mem hmem
    have hnd : (List.range N).Nodup := List.nodup_range N
    rw [hAB] at hnd
    obtain ⟨hndA, hndMB, hdisj⟩ := List.nodup_append.mp hnd
    have hnotA : x.1 % N ∉ A := fun hmA => hdisj hmA (List.mem_cons_self _ _)
    have hnotB : x.1 % N ∉ B := (List.nodup_cons.mp hndMB).1
    have hfilter_eq : ∀ i, ¬ i = x.1 % N →
        (x :: l).filter (fun p => p.1 % N == i) = l.filter (fun p => p.1 % N == i) := by
      intro i hi
      rw [List.filter_cons]
      have hb : (x.1 % N == i) = false := by
        simp only [beq_eq_false_iff_ne, ne_eq]
        exact fun he => hi he.symm
      rw [hb]
      simp
    have hfilter_self :
        (x :: l).filter (fun p => p.1 % N == x.1 % N)
          = x :: l.filter (fun p => p.1 % N == x.1 % N) := by
      rw [List.filter_cons]
      simp
    have hA : A.flatMap (fun i => (x :: l).filter fun p => p.1 % N == i)
        = A.flatMap (fun i => l.filter fun p => p.1 % N == i) :=
      flatMap_congr_mem _ _ _ (fun i hi => hfilter_eq i (fun he => hnotA (he ▸ hi)))
    have hB : B.flatMap (fun i => (x :: l).filter fun p => p.1 % N == i)
        = B.flatMap (fun i => l.filter fun p => p.1 % N == i) :=
      flatMap_congr_mem _ _ _ (fun i hi => hfilter_eq i (fun he => hnotB (he ▸ hi)))
    rw [hAB, List.flatMap_append, List.flatMap_cons, hA, hB, hfilter_self]
    have hshape :
        A.flatMap (fun i => l.filter fun p => p.1 % N == i)
            ++ ((x :: l.filter (fun p => p.1 % N == x.1 % N))
            ++ B.flatMap (fun i => l.filter fun p => p.1 % N == i))
          = A.flatMap (fun i => l.filter fun p => p.1 % N == i)
            ++ x :: (l.filter (fun p => p.1 % N == x.1 % N)
            ++ B.flatMap (fun i => l.filter fun p => p.1 % N == i)) := by
      simp
    rw [hshape]
    refine List.Perm.trans List.perm_middle ?_
    refine List.Perm.cons x ?_
    have hrebuild :
        A.flatMap (fun i => l.filter fun p => p.1 % N == i)
            ++ (l.filter (fun p => p.1 % N == x.1 % N)
            ++ B.flatMap (fun i => l.filter fun p => p.1 % N == i))
          = (List.range N).flatMap (fun i => l.filter fun p => p.1 % N == i) := by
      rw [hAB, List.flatMap_append, List.flatMap_cons]
    rw [hrebuild]
    exact ih

theorem ensureNL_single (l : List Char) (hl : '\n' ∉ l.dropLast) :
    (ensureNL l).getLast? = some '\n' ∧ '\n' ∉ (ensureNL l).dropLast := by
  rw [ensureNL]
  by_cases h : l.getLast? = some '\n'
  · rw [if_pos h]
    exact ⟨h, hl⟩
  · rw [if_neg h]
    refine ⟨List.getLast?_concat _, ?_⟩
    rw [List.dropLast_concat]
    intro hmem
    rcases List.eq_nil_or_concat l with hnil | ⟨l', a, hla⟩
    · subst hnil
      simp at hmem
    · rw [List.concat_eq_append] at hla
      subst hla
      rw [List.dropLast_concat] at hl
      rcases List.mem_append.mp hmem with hm | hm
      · exact hl hm
      · have ha : a = '\n' := by
          have := hm
          simp at this
          exact this.symm
        subst ha
        exact h (List.getLast?_concat _)

theorem mem_of_getElem_opt {α : Type} (l : List α) (i : Nat) (a : α)
    (h : l[i]? = some a) : a ∈ l := by
  induction l generalizing i with
  | nil => simp at h
  | cons b bs ih =>
    cases i with
    | zero =>
      rw [List.getElem?_cons_zero, Option.some.injEq] at h
      exact h ▸ List.mem_cons_self _ _
    | succ n =>
      rw [List.getElem?_cons_succ] at h
      exact List.mem_cons_of_mem _ (ih n h)

/-- C7: shard coverage. For an input of L lines and any mapper count N of at
least one, the multiset union of the shard contents equals the multiset of
the newline-normalized input lines, shard i holds exactly the lines whose
original index satisfies idx % N = i in ascending index order, and every
written line ends in a single newline even when its source line did not. -/
theorem shard_coverage (lines : List (List Char)) (N : Nat) (hN : 0 < N)
    (hLines : ∀ l ∈ lines, '\n' ∉ l.dropLast) :
    ((List.range N).flatMap (fun i => shardContent lines N i)).Perm (lines.map ensureNL)
    ∧ (∀ i idx x, (idx, x) ∈ shardPairs lines N i ↔ lines[idx]? = some x ∧ idx % N = i)
    ∧ (∀ i, (shardPairs lines N i).Pairwise (fun p q => p.1 < q.1))
    ∧ (∀ i, ∀ y ∈ shardContent lines N i,
        y.getLast? = some '\n' ∧ '\n' ∉ y.dropLast) := by
  refine ⟨?_, ?_, ?_, ?_⟩
  · have h1 : (List.range N).flatMap (fun i => shardContent lines N i)
        = ((List.range N).flatMap (fun i => shardPairs lines N i)).map
            (fun p => ensureNL p.2) := by
      rw [List.map_flatMap]
      rfl
    rw [h1]
    have h2 := buckets_perm N hN (pyEnumerate lines)
    have h4 := List.Perm.map (fun p : Nat × List Char => ensureNL p.2) h2
    refine h4.trans ?_
    rw [show (pyEnumerate lines).map (fun p => ensureNL p.2)
        = ((pyEnumerate lines).map Prod.snd).map ensureNL from by rw [List.map_map]; rfl]
    rw [pyEnumerate, pyEnumerateFrom_map_snd]
  · intro i idx x
    rw [shardPairs, List.mem_filter, pyEnumerate, mem_pyEnumerateFrom, Nat.sub_zero]
    constructor
    · rintro ⟨⟨_, hget⟩, hmod⟩
      exact ⟨hget, by simpa using hmod⟩
    · rintro ⟨hget, hmod⟩
      exact ⟨⟨Nat.zero_le _, hget⟩, by simpa using hmod⟩
  · intro i
    exact List.Pairwise.sublist (List.filter_sublist _) (pyEnumerateFrom_pairwise lines 0)
  · intro i y hy
    rw [shardContent, List.mem_map] at hy
    obtain ⟨p, hp, hpy⟩ := hy
    subst hpy
    apply ensureNL_single
    apply hLines
    rw [shardPairs, List.mem_filter] at hp
    obtain ⟨hp1, _⟩ := hp
    obtain ⟨idx, x⟩ := p
    have hmem := (mem_pyEnumerateFrom lines 0 idx x).mp hp1
    rw [Nat.sub_zero] at hmem
    exact mem_of_getElem_opt _ _ _ hmem.2

/-- Concrete input lines for evaluating the splitter model; the last line has
no trailing newline. -/
def witnessLines : List (List Char) := [['a'], ['b', '\n'], ['c']]

theorem shard_coverage_witness :
    (0 < 2 ∧ (∀ l ∈ witnessLines, '\n' ∉ l.dropLast)) ∧
    (((List.range 2).flatMap (fun i => shardContent witnessLines 2 i)).Perm
        (witnessLines.map ensureNL)
      ∧ (∀ i idx x, (idx, x) ∈ shardPairs witnessLines 2 i ↔
          witnessLines[idx]? = some x ∧ idx % 2 = i)
      ∧ (∀ i, (shardPairs witnessLines 2 i).Pairwise (fun p q => p.1 < q.1))
      ∧ (∀ i, ∀ y ∈ shardContent witnessLines 2 i,
          y.getLast? = some '\n' ∧ '\n' ∉ y.dropLast)) :=
  ⟨⟨by decide, by decide⟩, shard_coverage witnessLines 2 (by decide) (by decide)⟩

/-- Embeds the shard read of the Mapper constructor: open(self.input_path)
succeeds exactly when split_input_data created the shard file, that is when
some line index was routed to shard i, and readlines then returns the shard
content; a missing file raises FileNotFoundError. -/
def mapperReadShard (lines : List (List Char)) (N i : Nat) :
    Except PyError (List (List Char)) :=
  if shardFileExists lines N i then .ok (shardContent lines N i)
  else .error (.fileNotFoundError i)

/-- C5 evaluated at the failing inputs: splitting the empty corpus across
three mappers creates no shard file at all, constructing the Mapper of
shard 0 then raises FileNotFoundError instead of reading an empty shard,
and splitting a one-line corpus across three mappers leaves shard 1
without a file. -/
theorem empty_corpus_shard_missing :
    shardFileExists [] 3 0 = false
    ∧ shardFileExists [] 3 1 = false
    ∧ shardFileExists [] 3 2 = false
    ∧ mapperReadShard [] 3 0 = .error (.fileNotFoundError 0)
    ∧ shardFileExists [['a', '\n']] 3 1 = false := by
  exact ⟨rfl, rfl, rfl, rfl, rfl⟩

/-- Events of one start_mapper call, in program order. -/
inductive MapEvent where
  | statusInProg
  | publishActive (ids : List Nat)
  | statusDone
  | makeDirs
  | writeFile (r : Nat)
deriving DecidableEq

/-- Reducer ids of map_data in insertion order: the outer defaultdict gains
the key partition(k) the first time an emission is routed there. -/
def activeKeysOf (h : Key → Int) (R : Nat) (E : List KV) : List Nat :=
  firstDedup (E.map (fun kv => partitionOf h R kv.1))

/-- One step of insertion sort on naturals. -/
def insertSorted (n : Nat) : List Nat → List Nat
  | [] => [n]
  | m :: ms => if n ≤ m then n :: m :: ms else m :: insertSorted n ms

/-- The sorted rearrangement that list.sort() leaves behind. -/
def sortNat (l : List Nat) : List Nat := l.foldr insertSorted []

/-- Value put on the ancillary queue by start_mapper of the top-level tree:
self.reducer_ids is still the empty list set by the constructor, because
only write_data appends to it and write_data runs after the put. -/
def publishedListTop (_h : Key → Int) (_R : Nat) (_E : List KV) : List Nat :=
  sortNat []

/-- Value put on the ancillary queue by start_mapper of the nested tree: the
loop appends every key of map_data, the list is sorted in place, and then
write_data appends every key of map_data once more before the put. -/
def publishedListNested (h : Key → Int) (R : Nat) (E : List KV) : List Nat :=
  sortNat (activeKeysOf h R E) ++ activeKeysOf h R E

/-- Event trace of start_mapper in the top-level tree: status I, the put of
the active list, status D, then write_data, which runs makedirs and one
file write per key of map_data. -/
def startMapperTraceTop (h : Key → Int) (R : Nat) (E : List KV) : List MapEvent :=
  [.statusInProg, .publishActive (publishedListTop h R E), .statusDone, .makeDirs]
    ++ (activeKeysOf h R E).map .writeFile

/-- Event trace of start_mapper in the nested tree: status I, write_data,
the put of the active list, status D. -/
def startMapperTraceNested (h : Key → Int) (R : Nat) (E : List KV) : List MapEvent :=
  [.statusInProg, .makeDirs] ++ (activeKeysOf h R E).map .writeFile
    ++ [.publishActive (publishedListNested h R E), .statusDone]

/-- Recognizer of intermediate-file write events. -/
def MapEvent.isWrite : MapEvent → Bool
  | .writeFile _ => true
  | _ => false

/-- Recognizer of the done status message. -/
def MapEvent.isDoneMsg : MapEvent → Bool
  | .statusDone => true
  | _ => false

/-- Every intermediate-file write of the trace precedes the done message. -/
def writesBeforeDone (tr : List MapEvent) : Bool :=
  (tr.dropWhile (fun e => ! e.isDoneMsg)).all (fun e => ! e.isWrite)

/-- C2 evaluated at a failing input: a top-level mapper with one emission
(key a, one reducer) emits the done status message and only afterwards
writes its intermediate file m0r0, while the nested-tree mapper writes the
file before the done message. -/
theorem map_done_before_write_top :
    writesBeforeDone (startMapperTraceTop strLenHash 1 [("a", "1")]) = false
    ∧ startMapperTraceTop strLenHash 1 [("a", "1")]
        = [.statusInProg, .publishActive [], .statusDone, .makeDirs, .writeFile 0]
    ∧ writesBeforeDone (startMapperTraceNested strLenHash 1 [("a", "1")]) = true := by
  exact ⟨rfl, rfl, rfl⟩

/-- Emission sequence whose two keys reach partitions 1 and then 0 under
strLenHash with two reducers. -/
def witnessEmitsTwo : List KV := [("a", "1"), ("bb", "1")]

/-- C4 evaluated at failing inputs: the top-level tree publishes the empty
list although partition 0 received an emission, and the nested tree
publishes the sorted active list followed by a duplicate copy in insertion
order; neither published value equals the sorted active-reducer list. -/
theorem published_active_list_wrong :
    publishedListTop strLenHash 2 witnessEmitsTwo = []
    ∧ publishedListNested strLenHash 2 witnessEmitsTwo = [0, 1, 1, 0]
    ∧ sortNat (activeKeysOf strLenHash 2 witnessEmitsTwo) = [0, 1]
    ∧ activeFor strLenHash 2 witnessEmitsTwo 0 = true := by
  exact ⟨rfl, rfl, rfl, rfl⟩

/-- Supervisor side effects the monitoring loops can produce. -/
inductive SupEvent where
  | logLine
  | terminateWorker (idx : Nat)
  | respawnWorker (idx : Nat)
  | joinWorker (idx : Nat)
deriving DecidableEq

/-- State of monitor_reducers: the per-reducer loop flags reducer_status and
the number of get calls already made on each status queue. -/
structure RMon where
  status : List Bool
  polls : List Nat
deriving DecidableEq

/-- Monitor state for R reducers as set up by start_process. -/
def initRMon (R : Nat) : RMon :=
  { status := List.replicate R true, polls := List.replicate R 0 }

/-- Result of the n-th get call on the status queue of one reducer: a
message, or none when the call times out and raises the queue exception. -/
abbrev QueueBeh := Nat → Nat → Option WStatus

/-- Embeds the body of the for loop of monitor_reducers at index idx: an
index whose flag is cleared is skipped; otherwise one get call is made; a
done message clears the flag and joins the process; an in-progress message
changes nothing; and the timeout branch is the bare pass statement of the
source, producing no log, no terminate and no respawn. -/
def monitorReducerIdx (beh : QueueBeh) (s : RMon) (idx : Nat) : RMon × List SupEvent :=
  if s.status.getD idx false then
    match beh idx (s.polls.getD idx 0) with
    | some .done =>
      ({ status := s.status.set idx false,
         polls := s.polls.set idx (s.polls.getD idx 0 + 1) }, [.joinWorker idx])
    | some .inProg => ({ s with polls := s.polls.set idx (s.polls.getD idx 0 + 1) }, [])
    | none => ({ s with polls := s.polls.set idx (s.polls.getD idx 0 + 1) }, [])
  else (s, [])

/-- Accumulating step of one pass of the while loop. -/
def passStep (beh : QueueBeh) (acc : RMon × List SupEvent) (j : Nat) : RMon × List SupEvent :=
  ((monitorReducerIdx beh acc.1 j).1, acc.2 ++ (monitorReducerIdx beh acc.1 j).2)

/-- One pass of the while loop of monitor_reducers over every index. -/
def monitorReducersPass (beh : QueueBeh) (s : RMon) : RMon × List SupEvent :=
  (List.range s.status.length).foldl (passStep beh) (s, [])

/-- n passes of the while loop, accumulating the events of every pass. -/
def monitorReducersSteps (beh : QueueBeh) (s : RMon) : Nat → RMon × List SupEvent
  | 0 => (s, [])
  | n + 1 =>
    ((monitorReducersSteps beh (monitorReducersPass beh s).1 n).1,
      (monitorReducersPass beh s).2
        ++ (monitorReducersSteps beh (monitorReducersPass beh s).1 n).2)

/-- Queue behavior of a reducer process that never reports: every get call
on its status queue times out. -/
def alwaysTimeout : QueueBeh := fun _ _ => none

/-- C9 counterexample: with one reducer whose get call times out, the pass
performs a timed-out receive, and the supervisor produces no log event at
all, contradicting the part of the claim stating that the supervisor logs
on timeout. -/
theorem reduce_monitor_timeout_not_logged :
    (initRMon 1).status.getD 0 false = true
    ∧ alwaysTimeout 0 0 = none
    ∧ (monitorReducersPass alwaysTimeout (initRMon 1)).2 = []
    ∧ SupEvent.logLine ∉ (monitorReducersPass alwaysTimeout (initRMon 1)).2 := by
  refine ⟨rfl, rfl, rfl, ?_⟩
  intro hmem
  rw [show (monitorReducersPass alwaysTimeout (initRMon 1)).2 = [] from rfl] at hmem
  exact absurd hmem (List.not_mem_nil _)

theorem getD_set_ne {α : Type} (l : List α) (i j : Nat) (v d : α) (hij : ¬ i = j) :
    (l.set i v).getD j d = l.getD j d := by
  induction l generalizing i j with
  | nil => rfl
  | cons a as ih =>
    cases i with
    | zero =>
      cases j with
      | zero => exact absurd rfl hij
      | succ m => rfl
    | succ n =>
      cases j with
      | zero => rfl
      | succ m =>
        show (as.set n v).getD m d = as.getD m d
        exact ih n m (fun he => hij (by rw [he]))

theorem any_of_getD (l : List Bool) (idx : Nat) (h : l.getD idx false = true) :
    l.any (fun b => b) = true := by
  induction l generalizing idx with
  | nil =>
    cases idx <;> simp [List.getD] at h
  | cons b bs ih =>
    cases idx with
    | zero =>
      have hb : b = true := h
      simp [hb]
    | succ n =>
      have hrec := ih n h
      simp [List.any_cons, hrec]

theorem foldl_passStep_preserves (beh : QueueBeh) (idx : Nat)
    (hbeh : ∀ p, beh idx p ≠ some WStatus.done) (L : List Nat) :
    ∀ (s : RMon) (evs : List SupEvent), s.status.getD idx false = true →
      ((L.foldl (passStep beh) (s, evs)).1).status.getD idx false = true := by
  induction L with
  | nil => intro s evs hs; exact hs
  | cons j L ih =>
    intro s evs hs
    rw [List.foldl_cons]
    apply ih
    show (monitorReducerIdx beh s j).1.status.getD idx false = true
    rw [monitorReducerIdx]
    by_cases hj : s.status.getD j false
    · rw [if_pos hj]
      cases hb : beh j (s.polls.getD j 0) with
      | none => exact hs
      | some w =>
        cases w with
        | inProg => exact hs
        | done =>
          by_cases hji : j = idx
          · subst hji
            exact absurd hb (hbeh _)
          · show (s.status.set j false).getD idx false = true
            rw [getD_set_ne _ _ _ _ _ hji]
            exact hs
    · rw [if_neg hj]
      exact hs

theorem foldl_passStep_events (beh : QueueBeh) (L : List Nat) :
    ∀ (s : RMon) (evs : List SupEvent),
      (∀ e ∈ evs, ∃ j, e = SupEvent.joinWorker j) →
      ∀ e ∈ (L.foldl (passStep beh) (s, evs)).2, ∃ j, e = SupEvent.joinWorker j := by
  induction L with
  | nil => intro s evs hevs; exact hevs
  | cons j L ih =>
    intro s evs hevs
    rw [List.foldl_cons]
    apply ih
    intro e he
    simp only [passStep] at he
    rcases List.mem_append.mp he with h1 | h1
    · exact hevs e h1
    · rw [monitorReducerIdx] at h1
      by_cases hj : s.status.getD j false
      · rw [if_pos hj] at h1
        cases hb : beh j (s.polls.getD j 0) with
        | none =>
          rw [hb] at h1
          exact absurd h1 (List.not_mem_nil _)
        | some w =>
          cases w with
          | inProg =>
            rw [hb] at h1
            exact absurd h1 (List.not_mem_nil _)
          | done =>
            rw [hb] at h1
            refine ⟨j, ?_⟩
            simpa using h1
      · rw [if_neg hj] at h1
        exact absurd h1 (List.not_mem_nil _)

theorem getD_replicate_true (R idx : Nat) (h : idx < R) :
    (List.replicate R true).getD idx false = true := by
  induction R generalizing idx with
  | zero => omega
  | succ n ih =>
    cases idx with
    | zero => rfl
    | succ m => exact ih m (by omega)

theorem monitorReducersSteps_status (beh : QueueBeh) (idx : Nat)
    (hbeh : ∀ p, beh idx p ≠ some WStatus.done) (n : Nat) :
    ∀ (s : RMon), s.status.getD idx false = true →
      (monitorReducersSteps beh s n).1.status.getD idx false = true := by
  induction n with
  | zero => intro s hs; exact hs
  | succ n ih =>
    intro s hs
    show (monitorReducersSteps beh (monitorReducersPass beh s).1 n).1.status.getD idx false = true
    apply ih
    exact foldl_passStep_preserves beh idx hbeh _ s [] hs

theorem monitorReducersSteps_events (beh : QueueBeh) (n : Nat) :
    ∀ (s : RMon), ∀ e ∈ (monitorReducersSteps beh s n).2,
      ∃ j, e = SupEvent.joinWorker j := by
  induction n with
  | zero =>
    intro s e he
    exact absurd he (List.not_mem_nil _)
  | succ n ih =>
    intro s e he
    rcases List.mem_append.mp he with h1 | h1
    · exact foldl_passStep_events beh _ s []
        (fun e he' => absurd he' (List.not_mem_nil _)) e h1
    · exact ih _ e h1

/-- C9 amended: during the reduce phase a liveness timeout never terminates
or respawns a worker and also emits no log line (the timeout branch is a
bare pass); a reducer that never reports done keeps its loop flag set after
every number of passes, so the while condition any(reducer_status) stays
true and the monitoring loop runs forever. -/
theorem reduce_monitor_no_restart_and_hang (beh : QueueBeh) (R idx n : Nat)
    (hidx : idx < R) (hbeh : ∀ p, beh idx p ≠ some WStatus.done) :
    (∀ e ∈ (monitorReducersSteps beh (initRMon R) n).2,
        e ≠ SupEvent.logLine
          ∧ (∀ j, e ≠ SupEvent.terminateWorker j ∧ e ≠ SupEvent.respawnWorker j))
    ∧ (monitorReducersSteps beh (initRMon R) n).1.status.getD idx false = true
    ∧ (monitorReducersSteps beh (initRMon R) n).1.status.any (fun b => b) = true := by
  have hstatus := monitorReducersSteps_status beh idx hbeh n (initRMon R)
    (getD_replicate_true R idx hidx)
  refine ⟨?_, hstatus, any_of_getD _ idx hstatus⟩
  intro e he
  obtain ⟨j0, rfl⟩ := monitorReducersSteps_events beh n (initRMon R) e he
  exact ⟨by simp, fun j => ⟨by simp, by simp⟩⟩

theorem reduce_monitor_hang_witness :
    ((0 : Nat) < 1 ∧ (∀ p, alwaysTimeout 0 p ≠ some WStatus.done)) ∧
    ((∀ e ∈ (monitorReducersSteps alwaysTimeout (initRMon 1) 2).2,
        e ≠ SupEvent.logLine
          ∧ (∀ j, e ≠ SupEvent.terminateWorker j ∧ e ≠ SupEvent.respawnWorker j))
      ∧ (monitorReducersSteps alwaysTimeout (initRMon 1) 2).1.status.getD 0 false = true
      ∧ (monitorReducersSteps alwaysTimeout (initRMon 1) 2).1.status.any (fun b => b) = true) :=
  ⟨⟨by decide, fun p hp => by simp [alwaysTimeout] at hp⟩,
    reduce_monitor_no_restart_and_hang alwaysTimeout 1 0 2 (by decide)
      (fun p hp => by simp [alwaysTimeout] at hp)⟩
